import Mathlib

/-!
Shallow embedding of `llvm/include/llvm/ExecutionEngine/Orc/RPCChannel.h`:
the abstract RPC byte channel, the message-framing lock protocol, and the
type-directed codec (serialize/deserialize) for integers, booleans, strings,
tuples and vectors.  Bytes are modelled as natural numbers below 256; channel
states are explicit, and every fallible operation returns `Except ChannelError`.
-/

namespace OrcRemote

/-- Error produced by the underlying transport (a nonzero `std::error_code`);
the payload distinguishes distinct transport errors so that propagation of
the exact error can be observed. -/
inductive ChannelError where
  | channelError (code : Nat)
deriving DecidableEq, Repr

/-- Modelled from the spec: the byte-order helper
`support::endian::byte_swap<T, support::big>` lives in `llvm/Support/Endian.h`,
which is part of this repository but not under `src/`.  The spec fixes the
integer wire format as big-endian, most significant byte first; `toBytesBE w v`
is the `w`-byte big-endian image of `v` (its low `8*w` bits, matching the raw
machine reinterpretation of a `w`-byte integer). -/
def toBytesBE : Nat → Nat → List Nat
  | 0, _ => []
  | w + 1, v => (v / 2 ^ (8 * w)) % 256 :: toBytesBE w v

/-- Modelled from the spec: big-endian reassembly of a byte list into a natural
number, the reading counterpart of `toBytesBE`. -/
def fromBytesBE (bs : List Nat) : Nat :=
  bs.foldl (fun a b => a * 256 + b) 0

/-- Two's-complement reading of a `w`-byte bit pattern `n`, the value an
`intN_t` holds after `readBytes` fills its bytes. -/
def fromTwosComplement (w n : Nat) : Int :=
  if n < 2 ^ (8 * w - 1) then (n : Int) else (n : Int) - 2 ^ (8 * w)

/-- Abstract byte channel (`class RPCChannel`): the virtual `readBytes` and
`appendBytes` operations, over an explicit transport state `σ`.  `send`
(flush) is not used by the codec functions modelled here. -/
structure RPCChannel (σ : Type) where
  readBytes : σ → Nat → Except ChannelError (List Nat × σ)
  appendBytes : σ → List Nat → Except ChannelError σ

/-- State of the in-memory loopback transport: `input` holds the bytes still
available for reading, `output` the bytes appended so far. -/
structure QueueState where
  input : List Nat
  output : List Nat
deriving DecidableEq, Repr

/-- In-memory loopback transport: `readBytes` consumes from the front of
`input`, failing with `channelError 1` (connection closed / short read) when
fewer than the requested bytes remain; `appendBytes` appends to `output` and
always succeeds. -/
def queueChannel : RPCChannel QueueState :=
  ⟨fun st n =>
      if n ≤ st.input.length then
        .ok (st.input.take n, ⟨st.input.drop n, st.output⟩)
      else
        .error (.channelError 1),
    fun st bs => .ok ⟨st.input, st.output ++ bs⟩⟩

/-- Transport on which every operation fails, used to observe error
propagation on the serialize side: reads fail with `channelError 9`,
appends with `channelError 7`. -/
def failChannel : RPCChannel Unit :=
  ⟨fun _ _ => .error (.channelError 9), fun _ _ => .error (.channelError 7)⟩

/-- The closed universe of encodable values: fixed-width unsigned and signed
integers (the width in bytes recorded alongside the value), booleans,
`std::string` byte strings, heterogeneous `std::tuple`s and homogeneous
`std::vector` sequences. -/
inductive Value where
  | uintV (w : Nat) (v : Nat)
  | intV (w : Nat) (v : Int)
  | boolV (b : Bool)
  | stringV (s : List Nat)
  | tupleV (fields : List Value)
  | vectorV (elems : List Value)
deriving Repr

/-- The static shape (C++ type) that drives overload selection for
`deserialize`. -/
inductive Shape where
  | uintS (w : Nat)
  | intS (w : Nat)
  | boolS
  | stringS
  | tupleS (fields : List Shape)
  | vectorS (elem : Shape)

mutual

/-- `serialize` overloads of RPCChannel.h, one clause per overload:
integers append their `w` big-endian bytes; bools append one byte
(`V ? 1 : 0`); strings append an 8-byte count (`static_cast<uint64_t>(S.size())`)
then the payload — the byte count passed to `appendBytes` is an `unsigned`,
so the payload written is truncated to `S.size() mod 2^32` bytes; tuples go
through `serializeSeq` (via `serializeTupleHelper`); vectors (via
`ArrayRef<T>`) append an 8-byte count then each element in order, stopping at
the first error. -/
def serialize {σ : Type} (ch : RPCChannel σ) : Value → σ → Except ChannelError σ
  | .uintV w v, st => ch.appendBytes st (toBytesBE w v)
  | .intV w v, st => ch.appendBytes st (toBytesBE w (v % ((2 : Int) ^ (8 * w))).toNat)
  | .boolV b, st => ch.appendBytes st [if b then 1 else 0]
  | .stringV s, st =>
    match ch.appendBytes st (toBytesBE 8 s.length) with
    | .error e => .error e
    | .ok st1 => ch.appendBytes st1 (s.take (s.length % 2 ^ 32))
  | .tupleV fs, st => serializeSeq ch fs st
  | .vectorV es, st =>
    match ch.appendBytes st (toBytesBE 8 es.length) with
    | .error e => .error e
    | .ok st1 => serializeSeq ch es st1

/-- `serializeSeq`: apply `serialize` to each argument left to right,
returning the first error; the empty argument list is an immediate success
that leaves the channel untouched.  (The element loop of the `ArrayRef`
`serialize` overload has the identical first-error structure and is modelled
by the same function.) -/
def serializeSeq {σ : Type} (ch : RPCChannel σ) : List Value → σ → Except ChannelError σ
  | [], st => .ok st
  | v :: vs, st =>
    match serialize ch v st with
    | .error e => .error e
    | .ok st1 => serializeSeq ch vs st1

end

/-- Element loop of the `std::vector` `deserialize` overload, abstracted over
the element decoder `d` (the `deserialize` call the loop body makes): decode
`n` elements in order, returning the first error. -/
def deserializeN {σ : Type} (d : σ → Except ChannelError (Value × σ)) : Nat → σ → Except ChannelError (List Value × σ)
  | 0, st => .ok ([], st)
  | n + 1, st =>
    match d st with
    | .error e => .error e
    | .ok (v, st1) =>
      match deserializeN d n st1 with
      | .error e => .error e
      | .ok (vs, st2) => .ok (v :: vs, st2)

mutual

/-- `deserialize` overloads of RPCChannel.h, one clause per overload:
integers read their `w` bytes and reassemble them big-endian (signed types
through the two's-complement reading of the bit pattern); bools read one byte
and decode any nonzero value to `true`; strings read an 8-byte count, resize
the destination to the full count (`size_t` is 64 bits) and then request the
payload from `readBytes`, whose `Size` parameter is an `unsigned`, so only
`count mod 2^32` bytes are requested and the remainder of the resized string
keeps its zero fill; tuples decode each field in order via `deserializeSeq`;
vectors read an 8-byte count, resize, and decode that many elements in order,
stopping at the first error. -/
def deserialize {σ : Type} (ch : RPCChannel σ) : Shape → σ → Except ChannelError (Value × σ)
  | .uintS w, st =>
    match ch.readBytes st w with
    | .error e => .error e
    | .ok (bs, st1) => .ok (.uintV w (fromBytesBE bs), st1)
  | .intS w, st =>
    match ch.readBytes st w with
    | .error e => .error e
    | .ok (bs, st1) => .ok (.intV w (fromTwosComplement w (fromBytesBE bs)), st1)
  | .boolS, st =>
    match ch.readBytes st 1 with
    | .error e => .error e
    | .ok (bs, st1) => .ok (.boolV (fromBytesBE bs != 0), st1)
  | .stringS, st =>
    match ch.readBytes st 8 with
    | .error e => .error e
    | .ok (bs, st1) =>
      match ch.readBytes st1 (fromBytesBE bs % 2 ^ 32) with
      | .error e => .error e
      | .ok (ps, st2) =>
        .ok (.stringV (ps ++ List.replicate (fromBytesBE bs - fromBytesBE bs % 2 ^ 32) 0), st2)
  | .tupleS ss, st =>
    match deserializeSeq ch ss st with
    | .error e => .error e
    | .ok (vs, st1) => .ok (.tupleV vs, st1)
  | .vectorS s, st =>
    match ch.readBytes st 8 with
    | .error e => .error e
    | .ok (bs, st1) =>
      match deserializeN (fun st2 => deserialize ch s st2) (fromBytesBE bs) st1 with
      | .error e => .error e
      | .ok (vs, st2) => .ok (.vectorV vs, st2)

/-- `deserializeSeq`: decode each shape in order, left to right, returning the
first error; the empty list is an immediate success that leaves the channel
untouched. -/
def deserializeSeq {σ : Type} (ch : RPCChannel σ) : List Shape → σ → Except ChannelError (List Value × σ)
  | [], st => .ok ([], st)
  | s :: ss, st =>
    match deserialize ch s st with
    | .error e => .error e
    | .ok (v, st1) =>
      match deserializeSeq ch ss st1 with
      | .error e => .error e
      | .ok (vs, st2) => .ok (v :: vs, st2)

end

/-- The integer widths (in bytes) instantiated by the codec:
`u/int8_t, u/int16_t, u/int32_t, u/int64_t`. -/
def validWidth (w : Nat) : Prop := w = 1 ∨ w = 2 ∨ w = 4 ∨ w = 8

mutual

/-- Well-formedness of a value at a static shape: integers carry one of the
four supported widths and lie in the range of the corresponding C++ type;
string and vector lengths fit `uint64_t`; string entries are bytes; tuple
fields and vector elements are well-formed recursively. -/
def hasShape : Value → Shape → Prop
  | .uintV w v, .uintS w' => w = w' ∧ validWidth w ∧ v < 2 ^ (8 * w)
  | .intV w v, .intS w' =>
    w = w' ∧ validWidth w ∧ -((2 : Int) ^ (8 * w - 1)) ≤ v ∧ v < (2 : Int) ^ (8 * w - 1)
  | .boolV _, .boolS => True
  | .stringV s, .stringS => s.length < 2 ^ 64 ∧ ∀ b ∈ s, b < 256
  | .tupleV fs, .tupleS ss => hasShapeSeq fs ss
  | .vectorV es, .vectorS s => es.length < 2 ^ 64 ∧ hasShapeAll es s
  | _, _ => False

/-- Pointwise well-formedness of tuple fields at a list of shapes. -/
def hasShapeSeq : List Value → List Shape → Prop
  | [], [] => True
  | v :: vs, s :: ss => hasShape v s ∧ hasShapeSeq vs ss
  | _, _ => False

/-- Well-formedness of every vector element at the element shape. -/
def hasShapeAll : List Value → Shape → Prop
  | [], _ => True
  | v :: vs, s => hasShape v s ∧ hasShapeAll vs s

end

mutual

/-- Every string occurring in the value (at any nesting depth) is shorter
than `2^32`, so that the `unsigned` byte-count parameters of
`readBytes`/`appendBytes` do not truncate it. -/
def smallStrings : Value → Prop
  | .uintV _ _ => True
  | .intV _ _ => True
  | .boolV _ => True
  | .stringV s => s.length < 2 ^ 32
  | .tupleV fs => smallStringsList fs
  | .vectorV es => smallStringsList es

/-- `smallStrings` for every value in a list. -/
def smallStringsList : List Value → Prop
  | [] => True
  | v :: vs => smallStrings v ∧ smallStringsList vs

end

mutual

/-- The byte image a value leaves on the wire, computed directly (used to
relate `serialize` runs on the loopback transport to `deserialize` runs). -/
def wireBytes : Value → List Nat
  | .uintV w v => toBytesBE w v
  | .intV w v => toBytesBE w (v % ((2 : Int) ^ (8 * w))).toNat
  | .boolV b => [if b then 1 else 0]
  | .stringV s => toBytesBE 8 s.length ++ s.take (s.length % 2 ^ 32)
  | .tupleV fs => wireBytesList fs
  | .vectorV es => toBytesBE 8 es.length ++ wireBytesList es

/-- Concatenated byte images of a list of values. -/
def wireBytesList : List Value → List Nat
  | [] => []
  | v :: vs => wireBytes v ++ wireBytesList vs

end

/-- Result of a framing operation: the `std::error_code` it returns,
`success` being the default-constructed (zero) code. -/
inductive ErrorCode where
  | success
  | fail (e : ChannelError)
deriving DecidableEq, Repr

/-- The two mutexes owned by an `RPCChannel` (`readLock`, `writeLock`);
`true` means held.  Modelled from the spec: `std::mutex` is standard-library
code of this repository (libc++) not under `src/`; the spec's framing
protocol has each begin/end operation acquire/release one direction's lock. -/
structure LockState where
  readLock : Bool
  writeLock : Bool
deriving DecidableEq, Repr

/-- `startSendMessage`: acquire the write-lock, return the default error code. -/
def startSendMessage (m : LockState) : ErrorCode × LockState :=
  (.success, ⟨m.readLock, true⟩)

/-- `endSendMessage`: release the write-lock, return the default error code. -/
def endSendMessage (m : LockState) : ErrorCode × LockState :=
  (.success, ⟨m.readLock, false⟩)

/-- `startReceiveMessage`: acquire the read-lock, return the default error code. -/
def startReceiveMessage (m : LockState) : ErrorCode × LockState :=
  (.success, ⟨true, m.writeLock⟩)

/-- `endReceiveMessage`: release the read-lock, return the default error code. -/
def endReceiveMessage (m : LockState) : ErrorCode × LockState :=
  (.success, ⟨false, m.writeLock⟩)

/-- Events observable on one channel's write-lock: `lockWrite t` is thread
`t`'s `startSendMessage` call returning (its `writeLock.lock()` completing),
`unlockWrite t` is thread `t`'s `endSendMessage` call
(`writeLock.unlock()`). -/
inductive WriteLockEvent where
  | lockWrite (t : Nat)
  | unlockWrite (t : Nat)
deriving DecidableEq, Repr

/-- Modelled from the spec: the `std::mutex` step semantics (libc++ is part
of this repository but not under `src/`); `none` means the write-lock is
free, `some t` that thread `t` holds it.  An acquisition can complete only
while the lock is free (a later `lock()` call blocks until the holder
unlocks); a release is performed by the holder.  `writeLockStep h e` is the
holder state after event `e`, or `none`-result (`Option.none`) when `e`
cannot occur from holder state `h`. -/
def writeLockStep : Option Nat → WriteLockEvent → Option (Option Nat)
  | none, .lockWrite t => some (some t)
  | some _, .lockWrite _ => none
  | some h, .unlockWrite t => if h = t then some none else none
  | none, .unlockWrite _ => none

/-- The traces of write-lock events realizable from holder state `h`:
each event must be enabled at the state reached so far. -/
inductive ValidFrom : Option Nat → List WriteLockEvent → Prop
  | nil (h : Option Nat) : ValidFrom h []
  | cons (h h' : Option Nat) (e : WriteLockEvent) (es : List WriteLockEvent)
      (hstep : writeLockStep h e = some h') (hrest : ValidFrom h' es) :
      ValidFrom h (e :: es)

theorem length_toBytesBE (w : Nat) : ∀ v : Nat, (toBytesBE w v).length = w := by
  induction w with
  | zero => intro v; rfl
  | succ w ih => intro v; simp [toBytesBE, ih]

theorem foldl_toBytesBE (w : Nat) :
    ∀ v a : Nat,
      List.foldl (fun x b => x * 256 + b) a (toBytesBE w v) = a * 2 ^ (8 * w) + v % 2 ^ (8 * w) := by
  induction w with
  | zero => intro v a; simp [toBytesBE, Nat.mod_one]
  | succ w ih =>
    intro v a
    have hsplit : v % 2 ^ (8 * (w + 1)) = v % 2 ^ (8 * w) + 2 ^ (8 * w) * (v / 2 ^ (8 * w) % 256) := by
      rw [show 8 * (w + 1) = 8 * w + 8 by ring, pow_add]
      exact Nat.mod_mul
    rw [toBytesBE, List.foldl_cons, ih, hsplit, show 8 * (w + 1) = 8 * w + 8 by ring, pow_add]
    ring

theorem fromBytesBE_toBytesBE (w v : Nat) : fromBytesBE (toBytesBE w v) = v % 2 ^ (8 * w) := by
  simpa [fromBytesBE] using foldl_toBytesBE w v 0

theorem queueChannel_readBytes_exact (bs rest out : List Nat) (n : Nat) (h : bs.length = n) :
    queueChannel.readBytes ⟨bs ++ rest, out⟩ n = .ok (bs, ⟨rest, out⟩) := by
  subst h
  simp [queueChannel, List.take_left, List.drop_left]

mutual

theorem serialize_queue : ∀ (v : Value) (inp out : List Nat),
    serialize queueChannel v ⟨inp, out⟩ = .ok ⟨inp, out ++ wireBytes v⟩
  | .uintV w n, inp, out => by simp [serialize, wireBytes, queueChannel]
  | .intV w n, inp, out => by simp [serialize, wireBytes, queueChannel]
  | .boolV b, inp, out => by simp [serialize, wireBytes, queueChannel]
  | .stringV s, inp, out => by
    simp [serialize, wireBytes, queueChannel, List.append_assoc]
  | .tupleV fs, inp, out => by
    rw [show serialize queueChannel (.tupleV fs) ⟨inp, out⟩ = serializeSeq queueChannel fs ⟨inp, out⟩ from rfl,
      serializeSeq_queue fs inp out]
    simp [wireBytes]
  | .vectorV es, inp, out => by
    rw [show serialize queueChannel (.vectorV es) ⟨inp, out⟩ =
        serializeSeq queueChannel es ⟨inp, out ++ toBytesBE 8 es.length⟩ from rfl,
      serializeSeq_queue es inp (out ++ toBytesBE 8 es.length)]
    simp [wireBytes, List.append_assoc]

theorem serializeSeq_queue : ∀ (vs : List Value) (inp out : List Nat),
    serializeSeq queueChannel vs ⟨inp, out⟩ = .ok ⟨inp, out ++ wireBytesList vs⟩
  | [], inp, out => by simp [serializeSeq, wireBytesList]
  | v :: vs, inp, out => by
    rw [serializeSeq, serialize_queue v inp out]
    simp [serializeSeq_queue vs inp (out ++ wireBytes v), wireBytesList, List.append_assoc]

end

theorem fromTwosComplement_emod (w : Nat) (hw : 1 ≤ w) (v : Int)
    (h1 : -((2 : Int) ^ (8 * w - 1)) ≤ v) (h2 : v < (2 : Int) ^ (8 * w - 1)) :
    fromTwosComplement w ((v % ((2 : Int) ^ (8 * w))).toNat) = v := by
  have hMA : (2 ^ (8 * w) : Nat) = 2 ^ (8 * w - 1) * 2 := by
    have h8 : 8 * w = (8 * w - 1) + 1 := by omega
    conv_lhs => rw [h8]
    rw [pow_succ]
  have e1 : ((2 : Int) ^ (8 * w)) = ((2 ^ (8 * w) : Nat) : Int) := by push_cast; ring
  have e2 : ((2 : Int) ^ (8 * w - 1)) = ((2 ^ (8 * w - 1) : Nat) : Int) := by push_cast; ring
  rw [e2] at h1 h2
  rw [fromTwosComplement, e1]
  have hMA' : ((2 ^ (8 * w) : Nat) : Int) = ((2 ^ (8 * w - 1) : Nat) : Int) * 2 := by
    rw [hMA]; push_cast; ring
  rcases le_or_lt 0 v with hv | hv
  · have hvM : v % ((2 ^ (8 * w) : Nat) : Int) = v := by
      refine Int.emod_eq_of_lt hv ?_
      omega
    rw [hvM]
    split_ifs with hc <;> omega
  · have hvM : v % ((2 ^ (8 * w) : Nat) : Int) = v + ((2 ^ (8 * w) : Nat) : Int) := by
      have hstep := @Int.add_mul_emod_self_left v ((2 ^ (8 * w) : Nat) : Int) 1
      rw [mul_one] at hstep
      rw [← hstep]
      refine Int.emod_eq_of_lt ?_ ?_ <;> omega
    rw [hvM]
    split_ifs with hc <;> omega

theorem fromBytesBE_singleton (x : Nat) : fromBytesBE [x] = x := by
  simp [fromBytesBE]

theorem count64_eq (n : Nat) (h : n < 2 ^ 64) : fromBytesBE (toBytesBE 8 n) = n := by
  rw [fromBytesBE_toBytesBE]
  have h88 : (2 : Nat) ^ (8 * 8) = 2 ^ 64 := by norm_num
  rw [h88]
  exact Nat.mod_eq_of_lt h

theorem deserializeN_add {σ : Type} (d : σ → Except ChannelError (Value × σ)) (k m : Nat) :
    ∀ st : σ,
      deserializeN d (k + m) st =
        match deserializeN d k st with
        | .error e => .error e
        | .ok (vs, st1) =>
          match deserializeN d m st1 with
          | .error e => .error e
          | .ok (vs2, st2) => .ok (vs ++ vs2, st2) := by
  induction k with
  | zero =>
    intro st
    simp only [Nat.zero_add, deserializeN]
    cases hm : deserializeN d m st with
    | error e => rfl
    | ok p => rfl
  | succ k ih =>
    intro st
    rw [show k + 1 + m = (k + m) + 1 by omega]
    simp only [deserializeN]
    cases hd : d st with
    | error e => rfl
    | ok p =>
      obtain ⟨v, st1⟩ := p
      dsimp only
      rw [ih st1]
      cases hk : deserializeN d k st1 with
      | error e => rfl
      | ok q =>
        obtain ⟨vs, st2⟩ := q
        dsimp only
        cases hm : deserializeN d m st2 with
        | error e => rfl
        | ok r => simp

theorem validFrom_append (xs : List WriteLockEvent) :
    ∀ (ys : List WriteLockEvent) (h : Option Nat),
      ValidFrom h (xs ++ ys) → ∃ h', ValidFrom h' ys := by
  induction xs with
  | nil => intro ys h hv; exact ⟨h, hv⟩
  | cons e xs ih =>
    intro ys h hv
    cases hv with
    | cons _ h' _ _ _ hrest => exact ih ys h' hrest

theorem validFrom_locked_first (t t2 : Nat) (mid post : List WriteLockEvent)
    (hv : ValidFrom (some t) (mid ++ .lockWrite t2 :: post)) :
    .unlockWrite t ∈ mid := by
  cases mid with
  | nil =>
    cases hv with
    | cons _ h' _ _ hstep _ => simp [writeLockStep] at hstep
  | cons e mid' =>
    cases hv with
    | cons _ h' _ _ hstep _ =>
      cases e with
      | lockWrite u => simp [writeLockStep] at hstep
      | unlockWrite u =>
        have : t = u := by
          by_contra hne
          simp [writeLockStep, hne] at hstep
        subst this
        exact List.mem_cons_self _ _

mutual

theorem deserialize_roundtrip : ∀ (v : Value) (s : Shape), hasShape v s → smallStrings v →
    ∀ (rest out : List Nat),
      deserialize queueChannel s ⟨wireBytes v ++ rest, out⟩ = .ok (v, ⟨rest, out⟩)
  | .uintV w n, s, h, _, rest, out => by
    cases s <;> simp only [hasShape] at h
    obtain ⟨hww, _hvw, hn⟩ := h
    subst hww
    have hr := queueChannel_readBytes_exact (toBytesBE w n) rest out w (length_toBytesBE w n)
    simp [deserialize, wireBytes, hr, fromBytesBE_toBytesBE, Nat.mod_eq_of_lt hn]
  | .intV w n, s, h, _, rest, out => by
    cases s <;> simp only [hasShape] at h
    obtain ⟨hww, hvw, hlo, hhi⟩ := h
    subst hww
    have hw1 : 1 ≤ w := by rcases hvw with h | h | h | h <;> omega
    have hr := queueChannel_readBytes_exact (toBytesBE w ((n % ((2 : Int) ^ (8 * w))).toNat))
      rest out w (length_toBytesBE w _)
    have hlt : ((n % ((2 : Int) ^ (8 * w))).toNat) < 2 ^ (8 * w) := by
      have e1 : ((2 : Int) ^ (8 * w)) = ((2 ^ (8 * w) : Nat) : Int) := by push_cast; ring
      have hM : (0 : Int) < ((2 ^ (8 * w) : Nat) : Int) := by positivity
      have hup := Int.emod_lt_of_pos n hM
      have hlow := Int.emod_nonneg n (ne_of_gt hM)
      rw [← e1] at hup hlow
      rw [e1] at hup
      omega
    simp [deserialize, wireBytes, hr, fromBytesBE_toBytesBE, Nat.mod_eq_of_lt hlt,
      fromTwosComplement_emod w hw1 n hlo hhi]
  | .boolV b, s, h, _, rest, out => by
    cases s <;> simp only [hasShape] at h
    cases b
    · have hr := queueChannel_readBytes_exact [0] rest out 1 rfl
      simp only [List.singleton_append] at hr
      simp [deserialize, wireBytes, hr, fromBytesBE_singleton]
    · have hr := queueChannel_readBytes_exact [1] rest out 1 rfl
      simp only [List.singleton_append] at hr
      simp [deserialize, wireBytes, hr, fromBytesBE_singleton]
  | .stringV str, s, h, hss, rest, out => by
    cases s <;> simp only [hasShape] at h
    obtain ⟨hlen, _hbytes⟩ := h
    simp only [smallStrings] at hss
    have hmod32 : str.length % 2 ^ 32 = str.length := Nat.mod_eq_of_lt hss
    have htake : str.take (str.length % 2 ^ 32) = str := by
      rw [hmod32]; simp
    have hr1 := queueChannel_readBytes_exact (toBytesBE 8 str.length) (str ++ rest) out 8
      (length_toBytesBE 8 _)
    have hr2 := queueChannel_readBytes_exact str rest out str.length rfl
    have hcount : fromBytesBE (toBytesBE 8 str.length) = str.length := by
      rw [fromBytesBE_toBytesBE]
      have h88 : (2 : Nat) ^ (8 * 8) = 2 ^ 64 := by norm_num
      rw [h88]
      exact Nat.mod_eq_of_lt hlen
    simp only [wireBytes, deserialize, htake, List.append_assoc]
    rw [hr1]
    dsimp only
    rw [hcount, hmod32, hr2]
    simp
  | .tupleV fs, s, h, hss, rest, out => by
    cases s <;> simp only [hasShape] at h
    simp only [smallStrings] at hss
    simp only [wireBytes, deserialize]
    rw [deserializeSeq_roundtrip fs _ h hss rest out]
  | .vectorV es, s, h, hss, rest, out => by
    cases s <;> simp only [hasShape] at h
    obtain ⟨hlen, hall⟩ := h
    simp only [smallStrings] at hss
    have hr1 := queueChannel_readBytes_exact (toBytesBE 8 es.length) (wireBytesList es ++ rest) out 8
      (length_toBytesBE 8 _)
    simp only [deserialize, wireBytes, List.append_assoc, hr1, fromBytesBE_toBytesBE,
      Nat.mod_eq_of_lt hlen]
    rw [deserializeN_roundtrip es _ hall hss rest out]

theorem deserializeSeq_roundtrip : ∀ (vs : List Value) (ss : List Shape),
    hasShapeSeq vs ss → smallStringsList vs → ∀ (rest out : List Nat),
      deserializeSeq queueChannel ss ⟨wireBytesList vs ++ rest, out⟩ = .ok (vs, ⟨rest, out⟩)
  | [], ss, h, _, rest, out => by
    cases ss <;> simp only [hasShapeSeq] at h
    simp [deserializeSeq, wireBytesList]
  | v :: vs, ss, h, hss, rest, out => by
    cases ss <;> simp only [hasShapeSeq] at h
    obtain ⟨h1, h2⟩ := h
    simp only [smallStringsList] at hss
    obtain ⟨hs1, hs2⟩ := hss
    simp only [deserializeSeq, wireBytesList, List.append_assoc]
    rw [deserialize_roundtrip v _ h1 hs1 (wireBytesList vs ++ rest) out]
    dsimp only
    rw [deserializeSeq_roundtrip vs _ h2 hs2 rest out]

theorem deserializeN_roundtrip : ∀ (es : List Value) (s : Shape),
    hasShapeAll es s → smallStringsList es → ∀ (rest out : List Nat),
      deserializeN (fun st => deserialize queueChannel s st) es.length
        ⟨wireBytesList es ++ rest, out⟩ = .ok (es, ⟨rest, out⟩)
  | [], _, _, _, rest, out => by simp [deserializeN, wireBytesList]
  | v :: es, s, h, hss, rest, out => by
    simp only [hasShapeAll] at h
    obtain ⟨h1, h2⟩ := h
    simp only [smallStringsList] at hss
    obtain ⟨hs1, hs2⟩ := hss
    simp only [List.length_cons, wireBytesList, List.append_assoc, deserializeN]
    rw [deserialize_roundtrip v s h1 hs1 (wireBytesList es ++ rest) out]
    dsimp only
    rw [deserializeN_roundtrip es s h2 hs2 rest out]

end

/-- C1: serializing the unsigned 32-bit value 0x01020304 appends exactly the
bytes [0x01, 0x02, 0x03, 0x04] to the channel, most significant byte first
(big-endian), for every prior channel state. -/
theorem claim1_uint32_big_endian (inp out : List Nat) :
    serialize queueChannel (.uintV 4 0x01020304) ⟨inp, out⟩ =
      .ok ⟨inp, out ++ [0x01, 0x02, 0x03, 0x04]⟩ := rfl

/-- C6: serializing a boolean appends exactly one byte, 0 for `false` and 1
for `true`; deserializing a boolean consumes exactly one byte and decodes
every nonzero byte to `true` and the zero byte (and only it) to `false`. -/
theorem claim6_bool_codec :
    (∀ (inp out : List Nat),
      serialize queueChannel (.boolV false) ⟨inp, out⟩ = .ok ⟨inp, out ++ [0]⟩) ∧
    (∀ (inp out : List Nat),
      serialize queueChannel (.boolV true) ⟨inp, out⟩ = .ok ⟨inp, out ++ [1]⟩) ∧
    (∀ (b : Nat) (inp out : List Nat), b < 256 →
      deserialize queueChannel .boolS ⟨b :: inp, out⟩ =
        .ok (.boolV (b != 0), ⟨inp, out⟩)) := by
  refine ⟨fun inp out => rfl, fun inp out => rfl, fun b inp out _hb => ?_⟩
  have hr := queueChannel_readBytes_exact [b] inp out 1 rfl
  simp only [List.singleton_append] at hr
  simp [deserialize, hr, fromBytesBE_singleton]

/-- C6 witness: at the concrete nonzero byte 2 the decoder yields `true`,
consuming exactly that byte. -/
theorem claim6_bool_codec_witness :
    (2 : Nat) < 256 ∧
    deserialize queueChannel .boolS ⟨[2], []⟩ = .ok (.boolV true, ⟨[], []⟩) :=
  ⟨by norm_num, claim6_bool_codec.2.2 2 [] [] (by norm_num)⟩

/-- C7: serializing the tuple (uint8 7, bool true) appends exactly the bytes
[0x07, 0x01]: each field's own encoding concatenated in declared order, with
no separators and no count prefix. -/
theorem claim7_tuple_concatenation (inp out : List Nat) :
    serialize queueChannel (.tupleV [.uintV 1 7, .boolV true]) ⟨inp, out⟩ =
      .ok ⟨inp, out ++ [7, 1]⟩ := by
  rw [serialize_queue]
  simp [wireBytes, wireBytesList, toBytesBE]

/-- C8: serializing an empty sequence appends exactly the 8-byte zero count
and nothing else (the element shape never contributes bytes, as no element
serializer runs). -/
theorem claim8_empty_vector (inp out : List Nat) :
    serialize queueChannel (.vectorV []) ⟨inp, out⟩ =
      .ok ⟨inp, out ++ [0, 0, 0, 0, 0, 0, 0, 0]⟩ := by
  rw [serialize_queue]
  simp [wireBytes, wireBytesList, toBytesBE]

/-- C9: each of the four framing operations returns the success (default)
error code, for every lock state in which it is called. -/
theorem claim9_framing_success (m : LockState) :
    (startSendMessage m).1 = .success ∧ (endSendMessage m).1 = .success ∧
    (startReceiveMessage m).1 = .success ∧ (endReceiveMessage m).1 = .success :=
  ⟨rfl, rfl, rfl, rfl⟩

/-- C3: over any channel, `serializeSeq` applies each argument's codec left
to right; an argument's failure is returned as-is and no codec runs for any
later argument (the result is the same for every choice of later arguments);
an argument's success hands the updated channel state to the remaining
arguments; the empty argument list succeeds leaving the channel state
untouched; and `deserializeSeq` mirrors each of these clauses exactly. -/
theorem claim3_seq_composition :
    (∀ (σ : Type) (ch : RPCChannel σ) (st : σ), serializeSeq ch [] st = .ok st) ∧
    (∀ (σ : Type) (ch : RPCChannel σ) (v : Value) (vs : List Value) (st st1 : σ),
      serialize ch v st = .ok st1 →
        serializeSeq ch (v :: vs) st = serializeSeq ch vs st1) ∧
    (∀ (σ : Type) (ch : RPCChannel σ) (v : Value) (vs : List Value) (st : σ) (e : ChannelError),
      serialize ch v st = .error e → serializeSeq ch (v :: vs) st = .error e) ∧
    (∀ (σ : Type) (ch : RPCChannel σ) (st : σ), deserializeSeq ch [] st = .ok ([], st)) ∧
    (∀ (σ : Type) (ch : RPCChannel σ) (s : Shape) (ss : List Shape) (st st1 : σ) (v : Value),
      deserialize ch s st = .ok (v, st1) →
        deserializeSeq ch (s :: ss) st =
          (deserializeSeq ch ss st1).map (fun p => (v :: p.1, p.2))) ∧
    (∀ (σ : Type) (ch : RPCChannel σ) (s : Shape) (ss : List Shape) (st : σ) (e : ChannelError),
      deserialize ch s st = .error e → deserializeSeq ch (s :: ss) st = .error e) := by
  refine ⟨fun σ ch st => rfl, ?_, ?_, fun σ ch st => rfl, ?_, ?_⟩
  · intro σ ch v vs st st1 h
    simp [serializeSeq, h]
  · intro σ ch v vs st e h
    simp [serializeSeq, h]
  · intro σ ch s ss st st1 v h
    simp only [deserializeSeq, h]
    cases hss : deserializeSeq ch ss st1 with
    | error e => rfl
    | ok p => rfl
  · intro σ ch s ss st e h
    simp [deserializeSeq, h]

/-- C3 witness: the six clauses exercised on concrete channels — the empty
lists succeed without touching the state; a failing first append on
`failChannel` makes the two-element `serializeSeq` return that error; a
successful first codec hands the updated state to the rest; and the two
`deserializeSeq` mirrors at concrete inputs. -/
theorem claim3_seq_composition_witness :
    serializeSeq queueChannel [] (⟨[], []⟩ : QueueState) = .ok ⟨[], []⟩ ∧
    serializeSeq queueChannel [.boolV true, .boolV false] ⟨[], []⟩ =
      serializeSeq queueChannel [.boolV false] ⟨[], [1]⟩ ∧
    serializeSeq failChannel [.boolV true, .boolV false] () = .error (.channelError 7) ∧
    deserializeSeq queueChannel [] (⟨[], []⟩ : QueueState) = .ok ([], ⟨[], []⟩) ∧
    deserializeSeq queueChannel [.boolS, .boolS] ⟨[1, 0], []⟩ =
      (deserializeSeq queueChannel [.boolS] ⟨[0], []⟩).map
        (fun p => (.boolV true :: p.1, p.2)) ∧
    deserializeSeq queueChannel [.boolS, .boolS] ⟨[], []⟩ = .error (.channelError 1) :=
  ⟨claim3_seq_composition.1 QueueState queueChannel ⟨[], []⟩,
    claim3_seq_composition.2.1 QueueState queueChannel (.boolV true) [.boolV false]
      ⟨[], []⟩ ⟨[], [1]⟩ rfl,
    claim3_seq_composition.2.2.1 Unit failChannel (.boolV true) [.boolV false] () _ rfl,
    claim3_seq_composition.2.2.2.1 QueueState queueChannel ⟨[], []⟩,
    claim3_seq_composition.2.2.2.2.1 QueueState queueChannel .boolS [.boolS]
      ⟨[1, 0], []⟩ ⟨[0], []⟩ (.boolV true) rfl,
    claim3_seq_composition.2.2.2.2.2 QueueState queueChannel .boolS [.boolS]
      ⟨[], []⟩ (.channelError 1) rfl⟩

/-- C4: over any channel, if the count prefix of a vector decodes to more
than `k` elements, the first `k` elements decode successfully, and the next
element's decode fails with a `ChannelError`, then the whole vector
`deserialize` returns exactly that error — it neither succeeds nor
substitutes a different error. -/
theorem claim4_vector_error_propagation (σ : Type) (ch : RPCChannel σ) (s : Shape)
    (st st0 st1 : σ) (cb : List Nat) (k m : Nat) (vs : List Value) (err : ChannelError)
    (h8 : ch.readBytes st 8 = .ok (cb, st0))
    (hcount : fromBytesBE cb = k + (m + 1))
    (hk : deserializeN (fun st2 => deserialize ch s st2) k st0 = .ok (vs, st1))
    (herr : deserialize ch s st1 = .error err) :
    deserialize ch (.vectorS s) st = .error err := by
  simp only [deserialize, h8]
  rw [hcount, deserializeN_add _ k (m + 1) st0, hk]
  dsimp only
  simp only [deserializeN, herr]

/-- C4 witness: decoding a declared 5-element byte vector whose channel holds
only 2 element bytes — the first two elements decode, the third read fails
with the transport's `channelError 1`, and the vector `deserialize` returns
exactly that error. -/
theorem claim4_vector_error_propagation_witness :
    queueChannel.readBytes ⟨toBytesBE 8 5 ++ [10, 11], []⟩ 8 =
      .ok (toBytesBE 8 5, ⟨[10, 11], []⟩) ∧
    fromBytesBE (toBytesBE 8 5) = 2 + (2 + 1) ∧
    deserializeN (fun st2 => deserialize queueChannel (.uintS 1) st2) 2 ⟨[10, 11], []⟩ =
      .ok ([.uintV 1 10, .uintV 1 11], ⟨[], []⟩) ∧
    deserialize queueChannel (.uintS 1) ⟨[], []⟩ = .error (.channelError 1) ∧
    deserialize queueChannel (.vectorS (.uintS 1)) ⟨toBytesBE 8 5 ++ [10, 11], []⟩ =
      .error (.channelError 1) :=
  ⟨rfl, rfl, rfl, rfl,
    claim4_vector_error_propagation QueueState queueChannel (.uintS 1)
      ⟨toBytesBE 8 5 ++ [10, 11], []⟩ ⟨[10, 11], []⟩ ⟨[], []⟩ (toBytesBE 8 5) 2 2
      [.uintV 1 10, .uintV 1 11] (.channelError 1) rfl rfl rfl rfl⟩

/-- C5: the string deserializer reads an 8-byte count, resizes the
destination to the full count, but requests only `count mod 2^32` payload
bytes from the channel (the `uint64_t` count is truncated to the `unsigned`
`Size` parameter of `readBytes`): on a channel holding exactly that many
payload bytes the decode succeeds, the decoded string has the full declared
length with the unread tail zero-filled, and for every count ≥ 2^32 the
bytes requested differ from the declared length. -/
theorem claim5_string_count_truncation (count : Nat) (payload rest out : List Nat)
    (hcount : count < 2 ^ 64) (hpayload : payload.length = count % 2 ^ 32) :
    deserialize queueChannel .stringS ⟨toBytesBE 8 count ++ (payload ++ rest), out⟩ =
      .ok (.stringV (payload ++ List.replicate (count - count % 2 ^ 32) 0), ⟨rest, out⟩) ∧
    (payload ++ List.replicate (count - count % 2 ^ 32) 0).length = count ∧
    (2 ^ 32 ≤ count → count % 2 ^ 32 ≠ count) := by
  have h32 : (2 : Nat) ^ 32 = 4294967296 := by norm_num
  refine ⟨?_, ?_, ?_⟩
  · have hr1 := queueChannel_readBytes_exact (toBytesBE 8 count) (payload ++ rest) out 8
      (length_toBytesBE 8 _)
    have hr2 := queueChannel_readBytes_exact payload rest out (count % 2 ^ 32) hpayload
    have hc := count64_eq count hcount
    simp only [deserialize]
    rw [hr1]
    dsimp only
    rw [hc, hr2]
  · simp only [List.length_append, List.length_replicate, hpayload, h32]
    omega
  · rw [h32]
    intro hge
    omega

/-- C5 witness: at the declared count 2^32 + 2 the decoder requests only 2
payload bytes yet produces a string of the full declared length. -/
theorem claim5_string_count_truncation_witness :
    (4294967298 : Nat) < 2 ^ 64 ∧
    ([5, 6] : List Nat).length = 4294967298 % 2 ^ 32 ∧
    deserialize queueChannel .stringS ⟨toBytesBE 8 4294967298 ++ ([5, 6] ++ []), []⟩ =
      .ok (.stringV ([5, 6] ++ List.replicate (4294967298 - 4294967298 % 2 ^ 32) 0),
        ⟨[], []⟩) ∧
    2 ^ 32 ≤ (4294967298 : Nat) ∧ (4294967298 : Nat) % 2 ^ 32 ≠ 4294967298 :=
  ⟨by norm_num, by norm_num,
    (claim5_string_count_truncation 4294967298 [5, 6] [] [] (by norm_num) (by norm_num)).1,
    by norm_num,
    (claim5_string_count_truncation 4294967298 [5, 6] [] [] (by norm_num) (by norm_num)).2.2
      (by norm_num)⟩

/-- C2 (amended): decoding encoded bytes round-trips for every well-formed
value of every supported shape in which each string (at any nesting depth)
is shorter than 2^32 bytes: if serializing `v` appends `bytes`, then
deserializing at `v`'s static shape consumes exactly `bytes` and returns
`v`.  (The unamended universal claim fails for strings of length ≥ 2^32,
whose payload is truncated by the `unsigned` byte-count parameters of
`appendBytes`/`readBytes`; see the counterexample.) -/
theorem claim2_roundtrip (v : Value) (s : Shape) (bytes inp out rest out2 : List Nat)
    (h1 : hasShape v s) (h2 : smallStrings v)
    (h3 : serialize queueChannel v ⟨inp, out⟩ = .ok ⟨inp, out ++ bytes⟩) :
    deserialize queueChannel s ⟨bytes ++ rest, out2⟩ = .ok (v, ⟨rest, out2⟩) := by
  have hq := serialize_queue v inp out
  rw [h3] at hq
  have hb : bytes = wireBytes v := by
    simp only [Except.ok.injEq, QueueState.mk.injEq] at hq
    exact List.append_cancel_left hq.2
  rw [hb]
  exact deserialize_roundtrip v s h1 h2 rest out2

/-- C2 witness: a nested tuple-of-sequence-of-string value round-trips
through its 18-byte encoding. -/
theorem claim2_roundtrip_witness :
    hasShape (.tupleV [.uintV 1 7, .vectorV [.stringV [97, 98]]])
      (.tupleS [.uintS 1, .vectorS .stringS]) ∧
    smallStrings (.tupleV [.uintV 1 7, .vectorV [.stringV [97, 98]]]) ∧
    serialize queueChannel (.tupleV [.uintV 1 7, .vectorV [.stringV [97, 98]]]) ⟨[], []⟩ =
      .ok ⟨[], [] ++ [7, 0, 0, 0, 0, 0, 0, 0, 1, 0, 0, 0, 0, 0, 0, 0, 2, 97, 98]⟩ ∧
    deserialize queueChannel (.tupleS [.uintS 1, .vectorS .stringS])
      ⟨[7, 0, 0, 0, 0, 0, 0, 0, 1, 0, 0, 0, 0, 0, 0, 0, 2, 97, 98] ++ [], []⟩ =
      .ok (.tupleV [.uintV 1 7, .vectorV [.stringV [97, 98]]], ⟨[], []⟩) := by
  have hS : hasShape (.tupleV [.uintV 1 7, .vectorV [.stringV [97, 98]]])
      (.tupleS [.uintS 1, .vectorS .stringS]) := by
    norm_num [hasShape, hasShapeSeq, hasShapeAll, validWidth]
  have hsmall : smallStrings (.tupleV [.uintV 1 7, .vectorV [.stringV [97, 98]]]) := by
    norm_num [smallStrings, smallStringsList]
  exact ⟨hS, hsmall, rfl,
    claim2_roundtrip (.tupleV [.uintV 1 7, .vectorV [.stringV [97, 98]]])
      (.tupleS [.uintS 1, .vectorS .stringS])
      [7, 0, 0, 0, 0, 0, 0, 0, 1, 0, 0, 0, 0, 0, 0, 0, 2, 97, 98] [] [] [] []
      hS hsmall rfl⟩

/-- C2 counterexample: the claim as stated — decode(encode(v)) = v for every
value of a supported shape — fails at the string of 2^32 one-bytes: it is a
well-formed string value, its serialization consists of the 8 count bytes
alone (the 2^32 payload bytes are dropped by the `unsigned` truncation in
`appendBytes`), and deserializing those bytes returns the all-zero string of
length 2^32, which differs from the original value. -/
theorem claim2_counterexample :
    hasShape (.stringV (List.replicate (2 ^ 32) 1)) .stringS ∧
    serialize queueChannel (.stringV (List.replicate (2 ^ 32) 1)) ⟨[], []⟩ =
      .ok ⟨[], toBytesBE 8 (2 ^ 32)⟩ ∧
    deserialize queueChannel .stringS ⟨toBytesBE 8 (2 ^ 32), []⟩ =
      .ok (.stringV (List.replicate (2 ^ 32) 0), ⟨[], []⟩) ∧
    Value.stringV (List.replicate (2 ^ 32) 0) ≠ .stringV (List.replicate (2 ^ 32) 1) := by
  refine ⟨?_, ?_, ?_, ?_⟩
  · simp only [hasShape, List.length_replicate]
    refine ⟨by norm_num, ?_⟩
    intro b hb
    rw [List.eq_of_mem_replicate hb]
    norm_num
  · rw [serialize_queue]
    simp only [wireBytes, List.length_replicate, Nat.mod_self, List.take_zero,
      List.append_nil, List.nil_append]
  · have hr1 := queueChannel_readBytes_exact (toBytesBE 8 (2 ^ 32)) [] [] 8
      (length_toBytesBE 8 _)
    simp only [List.append_nil] at hr1
    have hc := count64_eq (2 ^ 32) (by norm_num)
    simp only [deserialize]
    rw [hr1]
    dsimp only
    rw [hc, Nat.mod_self]
    rw [show queueChannel.readBytes ⟨[], []⟩ 0 = .ok ([], ⟨[], []⟩) from rfl]
    simp only [List.nil_append, Nat.sub_zero]
  · intro h
    have h' : List.replicate (2 ^ 32) (0 : Nat) = List.replicate (2 ^ 32) 1 := by
      injection h
    have : (0 : Nat) = 1 := (List.replicate_right_inj (by norm_num)).mp h'
    norm_num at this

/-- C10: mutual exclusion of send-direction framed sections — in every
realizable trace of write-lock events starting from the free lock, between
one thread's completed `startSendMessage` acquisition and any later
`startSendMessage` acquisition there is an `endSendMessage` release by the
first thread: the second acquisition cannot proceed until the first holder
calls `endSendMessage`. -/
theorem claim10_send_mutual_exclusion (pre mid post : List WriteLockEvent) (t1 t2 : Nat)
    (hv : ValidFrom none (pre ++ .lockWrite t1 :: (mid ++ .lockWrite t2 :: post))) :
    .unlockWrite t1 ∈ mid := by
  obtain ⟨h', hv'⟩ := validFrom_append pre _ none hv
  cases hv' with
  | cons _ h'' _ _ hstep hrest =>
    cases h' with
    | none =>
      have hh : h'' = some t1 := by
        have := hstep
        simp only [writeLockStep, Option.some.injEq] at this
        exact this.symm
      subst hh
      exact validFrom_locked_first t1 t2 mid post hrest
    | some u => simp [writeLockStep] at hstep

/-- C10 witness: the concrete trace lock(0), unlock(0), lock(1) is
realizable, and the theorem locates the unlock(0) between the two
acquisitions. -/
theorem claim10_send_mutual_exclusion_witness :
    ValidFrom none [.lockWrite 0, .unlockWrite 0, .lockWrite 1] ∧
    WriteLockEvent.unlockWrite 0 ∈ [WriteLockEvent.unlockWrite 0] := by
  have hv : ValidFrom none [.lockWrite 0, .unlockWrite 0, .lockWrite 1] := by
    refine .cons _ (some 0) _ _ rfl (.cons _ none _ _ ?_ (.cons _ (some 1) _ _ rfl (.nil _)))
    simp [writeLockStep]
  exact ⟨hv, claim10_send_mutual_exclusion [] [.unlockWrite 0] [] 0 1 hv⟩

end OrcRemote
